import Mathlib

/-!
# Maison Beignet service worker (`sw.js`)

A shallow embedding of the two event handlers of `sw.js` (the `install`
handler and the `fetch` handler) together with the two constants they use,
followed by theorems about them.

The handlers are written against host capabilities that the repository does
not contain: the Cache Storage (`caches.open`, `caches.match`,
`cache.addAll`), the network transport (`fetch`) and the console.  They are
modelled here as state transformers on an explicit `World`; a promise is a
function from the world to an outcome and a new world.  Where the
specification of the repository leaves the behaviour of the host open, the
model follows the Cache Storage interface of the Service Worker standard:

* `caches.match` visits the buckets in creation order and answers with the
  match of the first bucket that has one; only a `GET` request matches;
* `cache.addAll` fetches every listed URL; it rejects with a `TypeError` when
  a fetch fails or is answered with a status outside 200 to 299 or with 206,
  and then writes nothing; otherwise it writes all responses as one batch of
  `put` operations, each replacing the entries stored under its key; a key
  repeated within the batch rejects the batch with an `InvalidStateError`.

Modelling decisions:
* a request is identified by its method and its URL, a URL being a
  canonical string (resolution against the origin and percent-encoding are
  injective on the identifiers of `sw.js` and are not modelled); request and
  response headers (hence `Vary`) are not modelled;
* the network transport answers a request as a function of the request;
  every request handed to it is recorded in `World.netLog`;
* each handler runs to completion without another handler interleaving;
  storage quota is not modelled.
-/

namespace MaisonBeignet

/-! ## Data model -/

/-- Resource identifier: a URL as a canonical string. -/
abbrev Url := String

/-- Incoming request: method and resource identifier. -/
structure Request where
  method : String
  url : Url
deriving DecidableEq, Repr

/-- Response payload: status and body. -/
structure Response where
  status : Nat
  body : String
deriving DecidableEq, Repr

/-- Reasons for which a promise of the model rejects. -/
inductive Rejection where
  /-- The network transport failed. -/
  | networkError (reason : String)
  /-- The bulk store refused a response (`TypeError`). -/
  | typeError
  /-- The bulk store met the same key twice (`InvalidStateError`). -/
  | invalidStateError
deriving DecidableEq, Repr

/-- Network transport: the answer to each request. -/
abbrev Network := Request → Except Rejection Response

/-- Storage bucket: its request/response list, oldest entry first. -/
abbrev Cache := List (Url × Response)

/-- Cache Storage: the named buckets in creation order. -/
abbrev CacheStorage := List (String × Cache)

/-- State of the host: the buckets, the requests handed to the network
transport so far (oldest first) and the console output. -/
structure World where
  caches : CacheStorage
  netLog : List Request
  console : List String
deriving DecidableEq, Repr

/-- Promise of the host: run on a world, it settles (fulfilled with a value
or rejected) and leaves a new world. -/
abbrev Promise (α : Type) := World → Except Rejection α × World

/-- Promise already fulfilled with `a` (a plain `return a` in a `then`
callback). -/
def Promise.resolve {α : Type} (a : α) : Promise α :=
  fun w => (Except.ok a, w)

/-- Method `p.then(f)`: run `f` on the value of `p`; a rejection of `p` skips
`f` and is passed on. -/
def Promise.andThen {α β : Type} (p : Promise α) (f : α → Promise β) : Promise β :=
  fun w =>
    match p w with
    | (Except.ok a, w1) => f a w1
    | (Except.error e, w1) => (Except.error e, w1)

/-! ## Host capabilities -/

/-- Modelled from the spec: the request a URL string stands for when it is
handed to the host (`new Request(url)`, not in the repository): a `GET` of
that identifier. -/
def getRequest (url : Url) : Request :=
  Request.mk "GET" url

/-- Modelled from the spec: the host's query of one bucket (not in the
repository), "matching by request identity": the entries stored under the
URL of the request; only a `GET` request matches anything. -/
def queryCache (request : Request) (cache : Cache) : List (Url × Response) :=
  if request.method = "GET" then cache.filter (fun e => e.1 = request.url) else []

/-- Modelled from the spec: `cache.match(request)` of the host (not in the
repository): the oldest entry of the bucket that matches, if any. -/
def cacheMatch (request : Request) (cache : Cache) : Option Response :=
  (queryCache request cache).head?.map (fun e => e.2)

/-- Modelled from the spec: `caches.match(request)` of the host (not in the
repository), "identifier lookups across open buckets": the match of the
first bucket, in creation order, that has one; `none` is `undefined`. -/
def cachesMatch (request : Request) : Promise (Option Response) :=
  fun w => (Except.ok (w.caches.findSome? (fun b => cacheMatch request b.2)), w)

/-- Modelled from the spec: the network transport `fetch(request)` (not in
the repository), "a fetch-by-identifier capability returning a response or
failing with a transport error"; the call is recorded. -/
def fetch (net : Network) (request : Request) : Promise Response :=
  fun w => (net request, World.mk w.caches (w.netLog ++ [request]) w.console)

/-- Modelled from the spec: `console.log(msg)` of the host (not in the
repository). -/
def consoleLog (msg : String) : Promise Unit :=
  fun w => (Except.ok (), World.mk w.caches w.netLog (w.console ++ [msg]))

/-- Modelled from the spec: `caches.open(name)` of the host (not in the
repository), "open-or-create a named bucket": an existing bucket of that name
is reused, otherwise an empty one is created after the existing ones.  The
handle of the bucket is its name. -/
def cachesOpen (name : String) : Promise String :=
  fun w =>
    if w.caches.any (fun b => b.1 = name) then (Except.ok name, w)
    else (Except.ok name, World.mk (w.caches ++ [(name, [])]) w.netLog w.console)

/-- Host storage: the contents of the bucket behind a handle (the first
bucket of that name; none of that name reads as empty). -/
def bucketOf (storage : CacheStorage) (name : String) : Cache :=
  match storage.find? (fun b => b.1 = name) with
  | some b => b.2
  | none => []

/-- Host storage: replace the contents of the bucket behind a handle; the
other buckets and the order of the buckets are kept. -/
def setBucket : CacheStorage → String → Cache → CacheStorage
  | [], _, _ => []
  | (n, c) :: rest, name, cache =>
    if n = name then (n, cache) :: rest else (n, c) :: setBucket rest name cache

/-- Modelled from the spec: the fetches the bulk store of the host takes as
succeeded ("network error, non-success status depending on policy"): the
transport answered, with a success status (200 to 299) other than 206. -/
def acceptable : Except Rejection Response → Option Response
  | Except.ok r => if 200 ≤ r.status ∧ r.status ≤ 299 ∧ r.status ≠ 206 then some r else none
  | Except.error _ => none

/-- Modelled from the spec: the wait of the host's bulk store for all its
fetches (not in the repository): the responses in request order when every
one is acceptable, `none` as soon as one is not. -/
def awaitAll (net : Network) : List Request → Option (List Response)
  | [] => some []
  | q :: qs =>
    match acceptable (net q), awaitAll net qs with
    | some r, some rs => some (r :: rs)
    | _, _ => none

/-- Modelled from the spec: the batch of `put` operations of the host's bulk
store (not in the repository).  Each operation removes the entries stored
under its key and appends the new entry; a key already written by an earlier
operation of the same batch aborts the batch. -/
def batchPut : Cache → List Url → List (Url × Response) → Except Rejection Cache
  | cache, _, [] => Except.ok cache
  | cache, added, (u, r) :: ops =>
    if u ∈ added then Except.error Rejection.invalidStateError
    else batchPut (cache.filter (fun e => e.1 ≠ u) ++ [(u, r)]) (added ++ [u]) ops

/-- Modelled from the spec: `cache.addAll(urls)` of the host (not in the
repository), "bulk-store a list of identifier→fetch pairs".  Every URL is
fetched; if one response is not acceptable the promise rejects and nothing
is written; otherwise the responses are written as one batch, which either
is applied whole or, on a repeated key, rejects and writes nothing. -/
def cacheAddAll (net : Network) (handle : String) (urls : List Url) : Promise Unit :=
  fun w =>
    let requests := urls.map getRequest
    let w1 := World.mk w.caches (w.netLog ++ requests) w.console
    match awaitAll net requests with
    | none => (Except.error Rejection.typeError, w1)
    | some responses =>
      match batchPut (bucketOf w.caches handle) [] (urls.zip responses) with
      | Except.error e => (Except.error e, w1)
      | Except.ok cache =>
        (Except.ok (), World.mk (setBucket w.caches handle cache) w1.netLog w.console)

/-! ## The program: `sw.js` -/

/-- Constant `CACHE_NAME` of `sw.js`. -/
def CACHE_NAME : String := "maison-beignet-v1"

/-- Constant `urlsToCache` of `sw.js`. -/
def urlsToCache : List Url :=
  [ "/",
    "/index.html",
    "/styles.css",
    "/assets/Image beignet Acceuil.png",
    "/assets/Logo Texte.png",
    "/assets/Logo Maison.png",
    "/assets/beignet pomme.png",
    "/assets/beignet chocolat.png",
    "/assets/image a propos.png",
    "/assets/Image plage.jpg",
    "/assets/Plage Nauzan.jpg",
    "/assets/Plage le Bois-Plage.jpeg",
    "/assets/Plage Saint Palais.jpg",
    "/assets/Super Joyful.ttf" ]

/-- Handler of the `install` event of `sw.js`: the promise handed to
`event.waitUntil`, whose settlement is what the host lifecycle observes. -/
def onInstall (net : Network) : Promise Unit :=
  (cachesOpen CACHE_NAME).andThen (fun cache =>
    (consoleLog "Cache ouvert").andThen (fun _ =>
      cacheAddAll net cache urlsToCache))

/-- Handler of the `fetch` event of `sw.js`: the promise handed to
`event.respondWith`, whose settlement is the answer to the request. -/
def onFetch (net : Network) (request : Request) : Promise Response :=
  (cachesMatch request).andThen (fun response =>
    match response with
    | some r => Promise.resolve r
    | none => fetch net request)

/-! ## Vocabulary of the statements and sample inputs -/

/-- Storage after `caches.open(name)`. -/
def openedStorage (storage : CacheStorage) (name : String) : CacheStorage :=
  if storage.any (fun b => b.1 = name) then storage else storage ++ [(name, [])]

/-- Entries a bulk store of `urls` writes: each URL with its acceptable
response. -/
def snapshot (net : Network) (urls : List Url) : Cache :=
  urls.filterMap (fun u => (acceptable (net (getRequest u))).map (fun r => (u, r)))

/-- Every listed fetch is answered with an acceptable response. -/
def AllFetched (net : Network) (urls : List Url) : Prop :=
  ∀ u ∈ urls, ∃ r, acceptable (net (getRequest u)) = some r

/-- Buckets created before the first bucket of a given name (all buckets
when none has that name). -/
def bucketsBefore (storage : CacheStorage) (name : String) : CacheStorage :=
  storage.takeWhile (fun b => b.1 ≠ name)

/-- Network on which every fetch is answered `200` with a fresh body. -/
def freshNet : Network :=
  fun q => Except.ok (Response.mk 200 ("fresh " ++ q.url))

/-- Network on which every fetch is answered `200` with an updated body. -/
def updatedNet : Network :=
  fun q => Except.ok (Response.mk 200 ("updated " ++ q.url))

/-- Network on which every fetch fails. -/
def offlineNet : Network :=
  fun _ => Except.error (Rejection.networkError "offline")

/-- Network on which only the stylesheet cannot be fetched. -/
def stylesDownNet : Network :=
  fun q =>
    if q.url = "/styles.css" then Except.error (Rejection.networkError "offline")
    else Except.ok (Response.mk 200 ("fresh " ++ q.url))

/-- Host with no bucket at all. -/
def emptyWorld : World := World.mk [] [] []

/-- Host on which a bucket with a copy of `/` was created after the bucket
`maison-beignet-v1`. -/
def lateStaleWorld : World :=
  World.mk [("maison-beignet-v1", []), ("maison-beignet-v0", [("/", Response.mk 200 "stale")])]
    [] []

/-- Host holding one bucket of an earlier generation with a copy of `/`. -/
def staleWorld : World :=
  World.mk [("maison-beignet-v0", [("/", Response.mk 200 "stale")])] [] []

/-! ## Lemmas on the host model -/

theorem acceptable_some {x : Except Rejection Response} {r : Response}
    (h : acceptable x = some r) : x = Except.ok r := by
  cases x with
  | error e => simp [acceptable] at h
  | ok a =>
    simp only [acceptable] at h
    split at h
    · simp at h; rw [h]
    · simp at h

theorem cacheMatch_nil (q : Request) : cacheMatch q [] = none := by
  simp [cacheMatch, queryCache]

theorem cacheMatch_append (q : Request) (a b : Cache) :
    cacheMatch q (a ++ b) = (cacheMatch q a).orElse (fun _ => cacheMatch q b) := by
  unfold cacheMatch queryCache
  by_cases h : q.method = "GET"
  · simp only [h, if_true, List.filter_append]
    cases hf : a.filter (fun e => e.1 = q.url) <;> simp
  · simp [h]

theorem cacheMatch_eq_none {q : Request} {c : Cache} (h : ∀ e ∈ c, e.1 ≠ q.url) :
    cacheMatch q c = none := by
  unfold cacheMatch queryCache
  have : c.filter (fun e => e.1 = q.url) = [] := by
    rw [List.filter_eq_nil_iff]
    intro e he
    simpa using h e he
  split <;> simp [this]

theorem cacheMatch_of_key {u : Url} {c : Cache} (h : u ∈ c.map Prod.fst) :
    ∃ r, (u, r) ∈ c ∧ cacheMatch (getRequest u) c = some r := by
  unfold cacheMatch queryCache
  simp only [getRequest, if_true]
  obtain ⟨e, he, rfl⟩ := List.mem_map.1 h
  cases hf : c.filter (fun x => x.1 = e.1) with
  | nil =>
    have : e ∈ c.filter (fun x => x.1 = e.1) := by simp [List.mem_filter, he]
    simp [hf] at this
  | cons x xs =>
    have hx : x ∈ c.filter (fun x => x.1 = e.1) := by simp [hf]
    rw [List.mem_filter] at hx
    have h1 : x.1 = e.1 := by simpa using hx.2
    refine ⟨x.2, ?_, by simp⟩
    rw [← h1]
    exact hx.1

theorem batchPut_nodup (ops : List (Url × Response)) :
    ∀ (cache : Cache) (added : List Url),
      (ops.map Prod.fst).Nodup → (∀ u ∈ ops.map Prod.fst, u ∉ added) →
      batchPut cache added ops =
        Except.ok (cache.filter (fun e => e.1 ∉ ops.map Prod.fst) ++ ops) := by
  induction ops with
  | nil => intro cache added _ _; simp [batchPut]
  | cons op ops ih =>
    intro cache added hnd hdis
    obtain ⟨u, r⟩ := op
    simp only [List.map_cons, List.nodup_cons] at hnd
    have hu : u ∉ added := hdis u (by simp)
    have hdis2 : ∀ v ∈ ops.map Prod.fst, v ∉ added ++ [u] := by
      intro v hv
      simp only [List.mem_append, List.mem_singleton, not_or]
      exact ⟨hdis v (by simp [hv]), fun h => hnd.1 (h ▸ hv)⟩
    rw [batchPut, if_neg hu, ih _ _ hnd.2 hdis2]
    have h1 : ([(u, r)] : Cache).filter (fun e => e.1 ∉ ops.map Prod.fst) = [(u, r)] := by
      simp [List.filter_cons, hnd.1]
    simp only [List.filter_append, h1, List.filter_filter, List.append_assoc,
      List.singleton_append, List.map_cons, List.mem_cons, not_or]
    congr 2
    apply List.filter_congr
    intro e _
    simp [Bool.and_comm]

theorem awaitAll_eq_none (net : Network) (qs : List Request)
    (h : ∃ q ∈ qs, acceptable (net q) = none) : awaitAll net qs = none := by
  induction qs with
  | nil => simp at h
  | cons q qs ih =>
    obtain ⟨x, hx, hnone⟩ := h
    rcases List.mem_cons.1 hx with rfl | hmem
    · simp [awaitAll, hnone]
    · have := ih ⟨x, hmem, hnone⟩
      simp only [awaitAll, this]
      split <;> simp_all

theorem awaitAll_zip (net : Network) (urls : List Url) :
    ∀ rs, awaitAll net (urls.map getRequest) = some rs → urls.zip rs = snapshot net urls := by
  induction urls with
  | nil => intro rs _; simp [snapshot]
  | cons u us ih =>
    intro rs h
    simp only [List.map_cons, awaitAll] at h
    cases hacc : acceptable (net (getRequest u)) with
    | none => simp [hacc] at h
    | some r =>
      cases hrest : awaitAll net (us.map getRequest) with
      | none => simp [hacc, hrest] at h
      | some rs1 =>
        simp only [hacc, hrest, Option.some.injEq] at h
        subst h
        simp [snapshot, List.filterMap_cons, hacc, ih rs1 hrest]

theorem awaitAll_of_all (net : Network) (urls : List Url) (h : AllFetched net urls) :
    ∃ rs, awaitAll net (urls.map getRequest) = some rs := by
  induction urls with
  | nil => exact ⟨[], rfl⟩
  | cons u us ih =>
    obtain ⟨r, hr⟩ := h u (by simp)
    obtain ⟨rs, hrs⟩ := ih (fun v hv => h v (by simp [hv]))
    exact ⟨r :: rs, by simp [awaitAll, hr, hrs]⟩

theorem snapshot_keys (net : Network) (urls : List Url) (h : AllFetched net urls) :
    (snapshot net urls).map Prod.fst = urls := by
  induction urls with
  | nil => simp [snapshot]
  | cons u us ih =>
    obtain ⟨r, hr⟩ := h u (by simp)
    have := ih (fun v hv => h v (by simp [hv]))
    simp only [snapshot] at this
    simp [snapshot, List.filterMap_cons, hr, this]

theorem snapshot_mem {net : Network} {urls : List Url} {u : Url} {r : Response}
    (h : (u, r) ∈ snapshot net urls) : net (getRequest u) = Except.ok r := by
  simp only [snapshot, List.mem_filterMap] at h
  obtain ⟨v, _, hv⟩ := h
  cases hacc : acceptable (net (getRequest v)) with
  | none => simp [hacc] at hv
  | some r1 =>
    simp only [hacc, Option.map_some', Option.some.injEq, Prod.mk.injEq] at hv
    obtain ⟨rfl, rfl⟩ := hv
    exact acceptable_some hacc

theorem snapshot_filter_listed (net : Network) (urls : List Url) :
    (snapshot net urls).filter (fun e => e.1 ∉ urls) = [] := by
  rw [List.filter_eq_nil_iff]
  intro e he
  simp only [snapshot, List.mem_filterMap] at he
  obtain ⟨v, hv, hev⟩ := he
  cases hacc : acceptable (net (getRequest v)) with
  | none => simp [hacc] at hev
  | some r1 =>
    simp only [hacc, Option.map_some', Option.some.injEq] at hev
    subst hev
    simpa using hv

theorem cachesOpen_eq (name : String) (w : World) :
    cachesOpen name w =
      (Except.ok name, World.mk (openedStorage w.caches name) w.netLog w.console) := by
  unfold cachesOpen openedStorage
  split <;> rfl

theorem openedStorage_has (s : CacheStorage) (n : String) :
    n ∈ (openedStorage s n).map Prod.fst := by
  unfold openedStorage
  split
  · rename_i h
    simp only [List.any_eq_true, decide_eq_true_eq] at h
    obtain ⟨b, hb, rfl⟩ := h
    exact List.mem_map_of_mem _ hb
  · simp

theorem openedStorage_of_has {s : CacheStorage} {n : String} (h : n ∈ s.map Prod.fst) :
    openedStorage s n = s := by
  unfold openedStorage
  rw [if_pos]
  simp only [List.any_eq_true, decide_eq_true_eq]
  obtain ⟨b, hb, rfl⟩ := List.mem_map.1 h
  exact ⟨b, hb, rfl⟩

theorem openedStorage_names (s : CacheStorage) (n : String) :
    (openedStorage s n).map Prod.fst =
      if n ∈ s.map Prod.fst then s.map Prod.fst else s.map Prod.fst ++ [n] := by
  by_cases h : n ∈ s.map Prod.fst
  · rw [openedStorage_of_has h, if_pos h]
  · rw [if_neg h]
    unfold openedStorage
    rw [if_neg]
    · simp
    · simp only [List.any_eq_true, decide_eq_true_eq, not_exists, not_and]
      intro b hb hn
      exact h (hn ▸ List.mem_map_of_mem _ hb)

theorem openedStorage_filter_ne (s : CacheStorage) (n : String) :
    (openedStorage s n).filter (fun b => b.1 ≠ n) = s.filter (fun b => b.1 ≠ n) := by
  unfold openedStorage
  split
  · rfl
  · simp [List.filter_append]

theorem bucketOf_openedStorage (s : CacheStorage) (n : String) :
    bucketOf (openedStorage s n) n = bucketOf s n := by
  unfold openedStorage
  split
  · rfl
  · rename_i h
    unfold bucketOf
    rw [List.find?_append]
    cases hf : s.find? (fun b => b.1 = n) <;> simp

theorem setBucket_names (s : CacheStorage) (n : String) (c : Cache) :
    (setBucket s n c).map Prod.fst = s.map Prod.fst := by
  induction s with
  | nil => rfl
  | cons b s ih =>
    obtain ⟨m, d⟩ := b
    simp only [setBucket]
    split <;> simp [ih]

theorem bucketOf_setBucket {s : CacheStorage} {n : String} (c : Cache)
    (h : n ∈ s.map Prod.fst) : bucketOf (setBucket s n c) n = c := by
  induction s with
  | nil => simp at h
  | cons b s ih =>
    obtain ⟨m, d⟩ := b
    simp only [setBucket]
    by_cases hm : m = n
    · simp [hm, bucketOf]
    · have hn : n ∈ s.map Prod.fst := by
        simp only [List.map_cons, List.mem_cons] at h
        rcases h with h | h
        · exact absurd h.symm hm
        · exact h
      have := ih hn
      simp only [bucketOf] at this
      simp [hm, bucketOf, List.find?_cons, this]

theorem setBucket_setBucket (s : CacheStorage) (n : String) (a b : Cache) :
    setBucket (setBucket s n a) n b = setBucket s n b := by
  induction s with
  | nil => rfl
  | cons x s ih =>
    obtain ⟨m, d⟩ := x
    by_cases hm : m = n
    · simp [setBucket, hm]
    · simp [setBucket, hm, ih]

theorem setBucket_filter_ne (s : CacheStorage) (n : String) (c : Cache) :
    (setBucket s n c).filter (fun b => b.1 ≠ n) = s.filter (fun b => b.1 ≠ n) := by
  induction s with
  | nil => rfl
  | cons x s ih =>
    obtain ⟨m, d⟩ := x
    by_cases hm : m = n
    · simp [setBucket, hm, List.filter_cons]
    · simpa [setBucket, hm, List.filter_cons] using ih

theorem mem_setBucket {s : CacheStorage} {n : String} (c : Cache)
    (h : n ∈ s.map Prod.fst) : (n, c) ∈ setBucket s n c := by
  induction s with
  | nil => simp at h
  | cons x s ih =>
    obtain ⟨m, d⟩ := x
    by_cases hm : m = n
    · simp [setBucket, hm]
    · have hn : n ∈ s.map Prod.fst := by
        simp only [List.map_cons, List.mem_cons] at h
        rcases h with h | h
        · exact absurd h.symm hm
        · exact h
      simp [setBucket, hm, ih hn]

theorem findSome_setBucket (f : Cache → Option Response) {s : CacheStorage} {n : String}
    {c : Cache} {r : Response}
    (h : n ∈ s.map Prod.fst) (hc : f c = some r) :
    (setBucket s n c).findSome? (fun b => f b.2) =
      some (((bucketsBefore s n).findSome? (fun b => f b.2)).getD r) := by
  induction s with
  | nil => simp at h
  | cons x s ih =>
    obtain ⟨m, d⟩ := x
    by_cases hm : m = n
    · simp [setBucket, bucketsBefore, hm, List.findSome?_cons, hc, List.takeWhile_cons]
    · have hn : n ∈ s.map Prod.fst := by
        simp only [List.map_cons, List.mem_cons] at h
        rcases h with h | h
        · exact absurd h.symm hm
        · exact h
      have := ih hn
      simp only [bucketsBefore] at this
      cases hd : f d with
      | some x => simp [setBucket, bucketsBefore, hm, List.findSome?_cons, hd, List.takeWhile_cons]
      | none =>
        simp [setBucket, bucketsBefore, hm, List.findSome?_cons, hd, List.takeWhile_cons, this]

theorem bucketsBefore_append_new (s : CacheStorage) (n : String) :
    bucketsBefore (s ++ [(n, [])]) n = bucketsBefore s n := by
  unfold bucketsBefore
  induction s with
  | nil => simp [List.takeWhile_cons]
  | cons x s ih =>
    by_cases hx : x.1 = n
    · simp [List.takeWhile_cons, hx]
    · simp only [List.cons_append, List.takeWhile_cons, ih]

theorem bucketsBefore_openedStorage (s : CacheStorage) (n : String) :
    bucketsBefore (openedStorage s n) n = bucketsBefore s n := by
  unfold openedStorage
  split
  · rfl
  · exact bucketsBefore_append_new s n

theorem snapshot_filter_absent (net : Network) (urls : List Url) (u : Url) (hu : u ∉ urls) :
    (snapshot net urls).filter (fun e => e.1 = u) = [] := by
  rw [List.filter_eq_nil_iff]
  intro e he
  simp only [snapshot, List.mem_filterMap] at he
  obtain ⟨v, hv, hev⟩ := he
  cases hacc : acceptable (net (getRequest v)) with
  | none => simp [hacc] at hev
  | some r1 =>
    simp only [hacc, Option.map_some', Option.some.injEq] at hev
    subst hev
    simp only [decide_eq_true_eq]
    intro heq
    exact hu (heq ▸ hv)

theorem snapshot_filter_key (net : Network) (urls : List Url) (u : Url)
    (hnd : urls.Nodup) (hu : u ∈ urls) (h : AllFetched net urls) :
    ∃ r, net (getRequest u) = Except.ok r ∧
      (snapshot net urls).filter (fun e => e.1 = u) = [(u, r)] := by
  induction urls with
  | nil => simp at hu
  | cons v vs ih =>
    obtain ⟨rv, hrv⟩ := h v (by simp)
    have hsnap : snapshot net (v :: vs) = (v, rv) :: snapshot net vs := by
      simp [snapshot, List.filterMap_cons, hrv]
    rw [List.nodup_cons] at hnd
    by_cases hvu : v = u
    · subst hvu
      refine ⟨rv, acceptable_some hrv, ?_⟩
      rw [hsnap, List.filter_cons]
      simp [snapshot_filter_absent net vs v hnd.1]
    · have huvs : u ∈ vs := by
        rcases List.mem_cons.1 hu with h1 | h1
        · exact absurd h1.symm hvu
        · exact h1
      obtain ⟨r, hr, hf⟩ := ih hnd.2 huvs (fun x hx => h x (by simp [hx]))
      refine ⟨r, hr, ?_⟩
      rw [hsnap, List.filter_cons]
      simp [hvu, hf]

theorem findSome_first {f : String × Cache → Option Response} {s : CacheStorage}
    {r : Response} (h : s.findSome? f = some r) :
    ∃ before b after, s = before ++ b :: after ∧ (∀ x ∈ before, f x = none) ∧ f b = some r := by
  induction s with
  | nil => simp at h
  | cons x s ih =>
    cases hx : f x with
    | some r1 =>
      rw [List.findSome?_cons, hx] at h
      exact ⟨[], x, s, rfl, by simp, by rw [hx, ← Option.some.inj h]⟩
    | none =>
      rw [List.findSome?_cons, hx] at h
      obtain ⟨before, b, after, hs, hbefore, hb⟩ := ih h
      refine ⟨x :: before, b, after, by rw [hs]; rfl, ?_, hb⟩
      intro y hy
      rcases List.mem_cons.1 hy with rfl | hy
      · exact hx
      · exact hbefore y hy

theorem onFetch_hit {net : Network} {q : Request} {w : World} {r : Response}
    (h : w.caches.findSome? (fun b => cacheMatch q b.2) = some r) :
    onFetch net q w = (Except.ok r, w) := by
  simp [onFetch, Promise.andThen, cachesMatch, h, Promise.resolve]

theorem onFetch_miss {net : Network} {q : Request} {w : World}
    (h : w.caches.findSome? (fun b => cacheMatch q b.2) = none) :
    onFetch net q w = (net q, World.mk w.caches (w.netLog ++ [q]) w.console) := by
  simp [onFetch, Promise.andThen, cachesMatch, h, fetch]

theorem cacheAddAll_ok (net : Network) (handle : String) (urls : List Url) (w : World)
    (hnd : urls.Nodup) (h : AllFetched net urls) :
    cacheAddAll net handle urls w =
      (Except.ok (),
        World.mk
          (setBucket w.caches handle
            ((bucketOf w.caches handle).filter (fun e => e.1 ∉ urls) ++ snapshot net urls))
          (w.netLog ++ urls.map getRequest) w.console) := by
  obtain ⟨rs, hrs⟩ := awaitAll_of_all net urls h
  have hz := awaitAll_zip net urls rs hrs
  have hk := snapshot_keys net urls h
  have hb := batchPut_nodup (snapshot net urls) (bucketOf w.caches handle) []
    (by rw [hk]; exact hnd) (by simp)
  rw [hk] at hb
  simp only [cacheAddAll, hrs, hz, hb]

theorem cacheAddAll_error (net : Network) (handle : String) (urls : List Url) (w : World)
    (h : ∃ u ∈ urls, acceptable (net (getRequest u)) = none) :
    cacheAddAll net handle urls w =
      (Except.error Rejection.typeError,
        World.mk w.caches (w.netLog ++ urls.map getRequest) w.console) := by
  have : awaitAll net (urls.map getRequest) = none := by
    apply awaitAll_eq_none
    obtain ⟨u, hu, hacc⟩ := h
    exact ⟨getRequest u, List.mem_map_of_mem _ hu, hacc⟩
  simp only [cacheAddAll, this]

theorem urlsToCache_nodup : urlsToCache.Nodup := by decide

theorem onInstall_eq (net : Network) (w : World) :
    onInstall net w =
      cacheAddAll net CACHE_NAME urlsToCache
        (World.mk (openedStorage w.caches CACHE_NAME) w.netLog (w.console ++ ["Cache ouvert"])) := by
  simp only [onInstall, Promise.andThen, cachesOpen_eq, consoleLog]

theorem mem_openedStorage {s : CacheStorage} {n : String} {b : String × Cache}
    (h : b ∈ openedStorage s n) : b ∈ s ∨ b = (n, []) := by
  unfold openedStorage at h
  split at h
  · exact Or.inl h
  · simpa using h

theorem allFetched_freshNet (urls : List Url) : AllFetched freshNet urls :=
  fun _ _ => ⟨_, rfl⟩

theorem allFetched_updatedNet (urls : List Url) : AllFetched updatedNet urls :=
  fun _ _ => ⟨_, rfl⟩

theorem exists_failed_of_not_allFetched {net : Network} {urls : List Url}
    (h : ¬ AllFetched net urls) : ∃ u ∈ urls, acceptable (net (getRequest u)) = none := by
  unfold AllFetched at h
  push_neg at h
  obtain ⟨u, hu, hno⟩ := h
  refine ⟨u, hu, ?_⟩
  cases hacc : acceptable (net (getRequest u)) with
  | none => rfl
  | some r => exact absurd hacc (hno r)

theorem findSome_none_of_forall {q : Request} {s : CacheStorage}
    (h : ∀ b ∈ s, cacheMatch q b.2 = none) :
    s.findSome? (fun b => cacheMatch q b.2) = none := by
  rw [List.findSome?_eq_none_iff]
  exact h

theorem onInstall_ok (net : Network) (w : World) (h : AllFetched net urlsToCache) :
    onInstall net w =
      (Except.ok (),
        World.mk
          (setBucket (openedStorage w.caches CACHE_NAME) CACHE_NAME
            ((bucketOf w.caches CACHE_NAME).filter (fun e => e.1 ∉ urlsToCache) ++
              snapshot net urlsToCache))
          (w.netLog ++ urlsToCache.map getRequest) (w.console ++ ["Cache ouvert"])) := by
  rw [onInstall_eq, cacheAddAll_ok net CACHE_NAME urlsToCache _ urlsToCache_nodup h]
  simp only [bucketOf_openedStorage]

theorem onInstall_error (net : Network) (w : World)
    (h : ∃ u ∈ urlsToCache, acceptable (net (getRequest u)) = none) :
    onInstall net w =
      (Except.error Rejection.typeError,
        World.mk (openedStorage w.caches CACHE_NAME)
          (w.netLog ++ urlsToCache.map getRequest) (w.console ++ ["Cache ouvert"])) := by
  rw [onInstall_eq, cacheAddAll_error net CACHE_NAME urlsToCache _ h]

theorem onInstall_twice (net again : Network) (w : World)
    (h : AllFetched net urlsToCache) (hagain : AllFetched again urlsToCache) :
    onInstall again (onInstall net w).2 =
      (Except.ok (),
        World.mk
          (setBucket (openedStorage w.caches CACHE_NAME) CACHE_NAME
            ((bucketOf w.caches CACHE_NAME).filter (fun e => e.1 ∉ urlsToCache) ++
              snapshot again urlsToCache))
          (w.netLog ++ urlsToCache.map getRequest ++ urlsToCache.map getRequest)
          (w.console ++ ["Cache ouvert"] ++ ["Cache ouvert"])) := by
  rw [onInstall_ok again _ hagain, onInstall_ok net w h]
  have hopen := openedStorage_has w.caches CACHE_NAME
  have hhas : CACHE_NAME ∈ (setBucket (openedStorage w.caches CACHE_NAME) CACHE_NAME
      ((bucketOf w.caches CACHE_NAME).filter (fun e => e.1 ∉ urlsToCache) ++
        snapshot net urlsToCache)).map Prod.fst := by
    rw [setBucket_names]; exact hopen
  simp only [openedStorage_of_has hhas, setBucket_setBucket]
  rw [← bucketOf_openedStorage (setBucket _ _ _), openedStorage_of_has hhas,
    bucketOf_setBucket _ hopen]
  simp only [List.filter_append, List.filter_filter, snapshot_filter_listed, List.append_nil,
    Bool.and_self]

/-! ## The claims -/

/-- C1 (cache hit): whenever some bucket holds a response matching the
request, the `fetch` handler answers with exactly the stored response of the
first bucket, in creation order, that holds a match, and the world, in
particular the record of network calls, is left as it was, whatever the
network would have answered. -/
theorem C1_cache_hit_serves_stored (net : Network) (w : World) (request : Request)
    (h : ∃ b ∈ w.caches, ∃ r, cacheMatch request b.2 = some r) :
    ∃ before b after r,
      w.caches = before ++ b :: after ∧
      (∀ x ∈ before, cacheMatch request x.2 = none) ∧
      cacheMatch request b.2 = some r ∧
      onFetch net request w = (Except.ok r, w) ∧
      (onFetch net request w).2.netLog = w.netLog := by
  cases hf : w.caches.findSome? (fun b => cacheMatch request b.2) with
  | none =>
    obtain ⟨b, hb, r, hr⟩ := h
    rw [List.findSome?_eq_none_iff] at hf
    rw [hf b hb] at hr
    exact absurd hr (by simp)
  | some r =>
    obtain ⟨before, b, after, hs, hbefore, hbr⟩ := findSome_first hf
    exact ⟨before, b, after, r, hs, hbefore, hbr, onFetch_hit hf, by rw [onFetch_hit hf]⟩

/-- Witness of C1: a stale copy of `/` is served while the network is down. -/
theorem C1_cache_hit_serves_stored_witness :
    (∃ b ∈ staleWorld.caches, ∃ r, cacheMatch (getRequest "/") b.2 = some r) ∧
    ∃ before b after r,
      staleWorld.caches = before ++ b :: after ∧
      (∀ x ∈ before, cacheMatch (getRequest "/") x.2 = none) ∧
      cacheMatch (getRequest "/") b.2 = some r ∧
      onFetch offlineNet (getRequest "/") staleWorld = (Except.ok r, staleWorld) ∧
      (onFetch offlineNet (getRequest "/") staleWorld).2.netLog = staleWorld.netLog :=
  ⟨⟨("maison-beignet-v0", [("/", Response.mk 200 "stale")]), by decide, Response.mk 200 "stale", rfl⟩,
    C1_cache_hit_serves_stored offlineNet staleWorld (getRequest "/")
      ⟨("maison-beignet-v0", [("/", Response.mk 200 "stale")]), by decide,
        Response.mk 200 "stale", rfl⟩⟩

/-- C2 (cache miss): when no bucket holds a match for the request, the
`fetch` handler hands exactly the original request to the network transport,
once, and settles as that call settled: the fetched response when it
succeeded, the same failure when it failed. -/
theorem C2_cache_miss_fetches_once (net : Network) (w : World) (request : Request)
    (h : ∀ b ∈ w.caches, cacheMatch request b.2 = none) :
    onFetch net request w =
      (net request, World.mk w.caches (w.netLog ++ [request]) w.console) :=
  onFetch_miss (findSome_none_of_forall h)

/-- Witness of C2: an identifier that is not stored, requested while the
network is down. -/
theorem C2_cache_miss_fetches_once_witness :
    (∀ b ∈ staleWorld.caches, cacheMatch (getRequest "/c.png") b.2 = none) ∧
    onFetch offlineNet (getRequest "/c.png") staleWorld =
      (offlineNet (getRequest "/c.png"),
        World.mk staleWorld.caches (staleWorld.netLog ++ [getRequest "/c.png"])
          staleWorld.console) :=
  ⟨by decide, C2_cache_miss_fetches_once offlineNet staleWorld (getRequest "/c.png") (by decide)⟩

/-- C3, as stated, fails: with a bucket of an earlier generation holding a
copy of `/`, install succeeds on a network answering every fetch, yet the
serve of `/` afterwards returns the earlier copy, not the response fetched
at install time. -/
theorem C3_counterexample_stale_bucket :
    ¬ (∀ (net : Network) (w : World), AllFetched net urlsToCache →
        (onInstall net w).1 = Except.ok () ∧
        ∀ u ∈ urlsToCache,
          onFetch net (getRequest u) (onInstall net w).2 =
            (net (getRequest u), (onInstall net w).2)) := by
  intro h
  have h1 := (h freshNet staleWorld (allFetched_freshNet urlsToCache)).2 "/" (by decide)
  have h2 : (onFetch freshNet (getRequest "/") (onInstall freshNet staleWorld).2).1 =
      Except.ok (Response.mk 200 "stale") := rfl
  rw [h1] at h2
  simp [freshNet, getRequest] at h2

/-- C3 (amended): on a network answering every listed fetch acceptably,
install succeeds from any storage; afterwards the bucket `maison-beignet-v1`
holds, for every listed identifier, the response fetched at install time,
and a serve of that identifier returns a stored response, one that a bucket
holds for it, and leaves the world, in particular the record of network
calls, as it was.  The response served is the one fetched at install time
whenever no bucket created before `maison-beignet-v1` held a match for the
identifier; otherwise it is the match of the first such bucket. -/
theorem C3_install_then_serve (net later : Network) (w : World)
    (h : AllFetched net urlsToCache) :
    (onInstall net w).1 = Except.ok () ∧
    ∀ u ∈ urlsToCache, ∃ fetched,
      net (getRequest u) = Except.ok fetched ∧
      cacheMatch (getRequest u) (bucketOf (onInstall net w).2.caches CACHE_NAME) = some fetched ∧
      ∃ served,
        onFetch later (getRequest u) (onInstall net w).2 = (Except.ok served, (onInstall net w).2) ∧
        (∃ b ∈ (onInstall net w).2.caches, cacheMatch (getRequest u) b.2 = some served) ∧
        ((∀ b ∈ bucketsBefore w.caches CACHE_NAME, cacheMatch (getRequest u) b.2 = none) →
          served = fetched) ∧
        (∀ r, (bucketsBefore w.caches CACHE_NAME).findSome?
            (fun b => cacheMatch (getRequest u) b.2) = some r → served = r) := by
  rw [onInstall_ok net w h]
  refine ⟨rfl, ?_⟩
  intro u hu
  have hopen := openedStorage_has w.caches CACHE_NAME
  have hkey : u ∈ (snapshot net urlsToCache).map Prod.fst := by
    rw [snapshot_keys net urlsToCache h]; exact hu
  obtain ⟨fetched, hmem, hsnap⟩ := cacheMatch_of_key hkey
  have hkept : cacheMatch (getRequest u)
      ((bucketOf w.caches CACHE_NAME).filter (fun e => e.1 ∉ urlsToCache)) = none := by
    apply cacheMatch_eq_none
    intro e he
    rw [List.mem_filter] at he
    intro heq
    have : e.1 ∉ urlsToCache := by simpa using he.2
    exact this (heq ▸ hu)
  have hnew : cacheMatch (getRequest u)
      ((bucketOf w.caches CACHE_NAME).filter (fun e => e.1 ∉ urlsToCache) ++
        snapshot net urlsToCache) = some fetched := by
    rw [cacheMatch_append, hkept, hsnap]; rfl
  have hf := findSome_setBucket (cacheMatch (getRequest u)) hopen hnew
  rw [bucketsBefore_openedStorage] at hf
  refine ⟨fetched, snapshot_mem hmem, ?_, ?_⟩
  · simp only [bucketOf_setBucket _ hopen]
    exact hnew
  · refine ⟨_, onFetch_hit hf, List.exists_of_findSome?_eq_some hf, ?_, ?_⟩
    · intro hnone
      rw [findSome_none_of_forall hnone]
      rfl
    · intro r hr
      rw [hr]
      rfl

/-- Witness of C3 (amended): a bucket holding a copy of `/` was created after
`maison-beignet-v1`; install on a network answering every fetch. -/
theorem C3_install_then_serve_witness :
    AllFetched freshNet urlsToCache ∧
    ((onInstall freshNet lateStaleWorld).1 = Except.ok () ∧
    ∀ u ∈ urlsToCache, ∃ fetched,
      freshNet (getRequest u) = Except.ok fetched ∧
      cacheMatch (getRequest u)
        (bucketOf (onInstall freshNet lateStaleWorld).2.caches CACHE_NAME) = some fetched ∧
      ∃ served,
        onFetch offlineNet (getRequest u) (onInstall freshNet lateStaleWorld).2 =
          (Except.ok served, (onInstall freshNet lateStaleWorld).2) ∧
        (∃ b ∈ (onInstall freshNet lateStaleWorld).2.caches,
          cacheMatch (getRequest u) b.2 = some served) ∧
        ((∀ b ∈ bucketsBefore lateStaleWorld.caches CACHE_NAME,
            cacheMatch (getRequest u) b.2 = none) →
          served = fetched) ∧
        (∀ r, (bucketsBefore lateStaleWorld.caches CACHE_NAME).findSome?
            (fun b => cacheMatch (getRequest u) b.2) = some r → served = r)) :=
  ⟨allFetched_freshNet urlsToCache,
    C3_install_then_serve freshNet offlineNet lateStaleWorld (allFetched_freshNet urlsToCache)⟩

/-- C4 (install is all-or-nothing on failure): if the fetch of at least one
listed identifier fails (the transport fails, or answers with a response the
bulk store does not accept), the promise handed to `event.waitUntil` rejects;
install is fulfilled only if every listed fetch was answered acceptably. -/
theorem C4_install_fails_if_any_fetch_fails (net : Network) (w : World) :
    ((∃ u ∈ urlsToCache, ∃ e, net (getRequest u) = Except.error e) →
      (onInstall net w).1 = Except.error Rejection.typeError) ∧
    ((∃ u ∈ urlsToCache, acceptable (net (getRequest u)) = none) →
      (onInstall net w).1 = Except.error Rejection.typeError) ∧
    ((onInstall net w).1 = Except.ok () → AllFetched net urlsToCache) := by
  refine ⟨?_, ?_, ?_⟩
  · rintro ⟨u, hu, e, he⟩
    rw [onInstall_error net w ⟨u, hu, by rw [he]; rfl⟩]
  · intro hfail
    rw [onInstall_error net w hfail]
  · intro hok
    by_contra hnot
    rw [onInstall_error net w (exists_failed_of_not_allFetched hnot)] at hok
    simp at hok

/-- Witness of C4: the stylesheet cannot be fetched, install rejects. -/
theorem C4_install_fails_if_any_fetch_fails_witness :
    (∃ u ∈ urlsToCache, ∃ e, stylesDownNet (getRequest u) = Except.error e) ∧
    (onInstall stylesDownNet emptyWorld).1 = Except.error Rejection.typeError :=
  ⟨⟨"/styles.css", by decide, Rejection.networkError "offline", rfl⟩,
    (C4_install_fails_if_any_fetch_fails stylesDownNet emptyWorld).1
      ⟨"/styles.css", by decide, Rejection.networkError "offline", rfl⟩⟩

/-- C5 (serve never writes to storage): whatever the storage, the network
and the request, the buckets after the `fetch` handler are the buckets
before it, on a hit and on a fallback that succeeds or fails alike; hence a
request that missed and was fetched misses again on the next serve, which
goes to the network once more. -/
theorem C5_serve_never_writes (net : Network) (w : World) (request : Request) :
    (onFetch net request w).2.caches = w.caches ∧
    ((∀ b ∈ w.caches, cacheMatch request b.2 = none) →
      (∀ b ∈ (onFetch net request w).2.caches, cacheMatch request b.2 = none) ∧
      ∀ later : Network,
        onFetch later request (onFetch net request w).2 =
          (later request, World.mk w.caches (w.netLog ++ [request, request]) w.console)) := by
  constructor
  · cases hf : w.caches.findSome? (fun b => cacheMatch request b.2) with
    | none => rw [onFetch_miss hf]
    | some r => rw [onFetch_hit hf]
  · intro hmiss
    have hf := findSome_none_of_forall hmiss
    rw [onFetch_miss hf]
    refine ⟨hmiss, fun later => ?_⟩
    rw [@onFetch_miss later request (World.mk w.caches (w.netLog ++ [request]) w.console) hf]
    simp

/-- Witness of C5: `/c.png` is fetched on a miss and misses again. -/
theorem C5_serve_never_writes_witness :
    (∀ b ∈ staleWorld.caches, cacheMatch (getRequest "/c.png") b.2 = none) ∧
    ((onFetch freshNet (getRequest "/c.png") staleWorld).2.caches = staleWorld.caches ∧
    ((∀ b ∈ staleWorld.caches, cacheMatch (getRequest "/c.png") b.2 = none) →
      (∀ b ∈ (onFetch freshNet (getRequest "/c.png") staleWorld).2.caches,
        cacheMatch (getRequest "/c.png") b.2 = none) ∧
      ∀ later : Network,
        onFetch later (getRequest "/c.png") (onFetch freshNet (getRequest "/c.png") staleWorld).2 =
          (later (getRequest "/c.png"),
            World.mk staleWorld.caches
              (staleWorld.netLog ++ [getRequest "/c.png", getRequest "/c.png"])
              staleWorld.console))) :=
  ⟨by decide, C5_serve_never_writes freshNet staleWorld (getRequest "/c.png")⟩

/-- C6 (install is idempotent): opening a bucket of the same name a second
time returns the same handle and leaves the storage as the first opening
left it (no second bucket).  On networks answering every listed fetch
acceptably, an install run on the storage a first install left behind
succeeds again; it fetches every listed identifier again (the record of
network calls grows by the listed requests once more), creates no bucket,
and leaves in `maison-beignet-v1` the unlisted entries followed by the
responses of the second run: under every listed identifier exactly one
entry, the response fetched by the second run, the earlier one being
overwritten.  Against the same network the storage after the second install
is the storage after the first. -/
theorem C6_install_idempotent (net again : Network) (w : World)
    (h : AllFetched net urlsToCache) (hagain : AllFetched again urlsToCache) :
    (∀ name : String,
      cachesOpen name (cachesOpen name w).2 = (Except.ok name, (cachesOpen name w).2)) ∧
    (onInstall net w).1 = Except.ok () ∧
    (onInstall net w).2.netLog = w.netLog ++ urlsToCache.map getRequest ∧
    (onInstall again (onInstall net w).2).1 = Except.ok () ∧
    (onInstall again (onInstall net w).2).2.netLog =
      (onInstall net w).2.netLog ++ urlsToCache.map getRequest ∧
    (onInstall again (onInstall net w).2).2.caches.map Prod.fst =
      (onInstall net w).2.caches.map Prod.fst ∧
    bucketOf (onInstall again (onInstall net w).2).2.caches CACHE_NAME =
      (bucketOf w.caches CACHE_NAME).filter (fun e => e.1 ∉ urlsToCache) ++
        snapshot again urlsToCache ∧
    (∀ u ∈ urlsToCache, ∃ r,
      again (getRequest u) = Except.ok r ∧
      (bucketOf (onInstall again (onInstall net w).2).2.caches CACHE_NAME).filter
        (fun e => e.1 = u) = [(u, r)] ∧
      cacheMatch (getRequest u)
        (bucketOf (onInstall again (onInstall net w).2).2.caches CACHE_NAME) = some r) ∧
    (onInstall net (onInstall net w).2).2.caches = (onInstall net w).2.caches := by
  have hopen := openedStorage_has w.caches CACHE_NAME
  refine ⟨?_, ?_, ?_, ?_, ?_, ?_, ?_, ?_, ?_⟩
  · intro name
    rw [cachesOpen_eq name w, cachesOpen_eq]
    simp only [openedStorage_of_has (openedStorage_has w.caches name)]
  · rw [onInstall_ok net w h]
  · rw [onInstall_ok net w h]
  · rw [onInstall_twice net again w h hagain]
  · rw [onInstall_twice net again w h hagain, onInstall_ok net w h]
  · rw [onInstall_twice net again w h hagain, onInstall_ok net w h]
    simp only [setBucket_names]
  · rw [onInstall_twice net again w h hagain]
    simp only [bucketOf_setBucket _ hopen]
  · intro u hu
    rw [onInstall_twice net again w h hagain]
    simp only [bucketOf_setBucket _ hopen]
    obtain ⟨r, hr, hfilter⟩ := snapshot_filter_key again urlsToCache u urlsToCache_nodup hu hagain
    have hkept : ((bucketOf w.caches CACHE_NAME).filter (fun e => e.1 ∉ urlsToCache)).filter
        (fun e => e.1 = u) = [] := by
      rw [List.filter_eq_nil_iff]
      intro e he
      rw [List.mem_filter] at he
      have hne : e.1 ∉ urlsToCache := by simpa using he.2
      simp only [decide_eq_true_eq]
      intro heq
      exact hne (heq ▸ hu)
    have hall : ((bucketOf w.caches CACHE_NAME).filter (fun e => e.1 ∉ urlsToCache) ++
        snapshot again urlsToCache).filter (fun e => e.1 = u) = [(u, r)] := by
      rw [List.filter_append, hkept, hfilter]
      rfl
    refine ⟨r, hr, hall, ?_⟩
    have hq : queryCache (getRequest u)
        ((bucketOf w.caches CACHE_NAME).filter (fun e => e.1 ∉ urlsToCache) ++
          snapshot again urlsToCache) = [(u, r)] := by
      simp only [queryCache, getRequest, if_true]
      exact hall
    simp only [cacheMatch, hq]
    rfl
  · rw [onInstall_twice net net w h h, onInstall_ok net w h]

/-- Witness of C6: an install from no bucket at all, then a second install on
a network whose responses have changed. -/
theorem C6_install_idempotent_witness :
    AllFetched freshNet urlsToCache ∧ AllFetched updatedNet urlsToCache ∧
    ((∀ name : String,
      cachesOpen name (cachesOpen name emptyWorld).2 =
        (Except.ok name, (cachesOpen name emptyWorld).2)) ∧
    (onInstall freshNet emptyWorld).1 = Except.ok () ∧
    (onInstall freshNet emptyWorld).2.netLog =
      emptyWorld.netLog ++ urlsToCache.map getRequest ∧
    (onInstall updatedNet (onInstall freshNet emptyWorld).2).1 = Except.ok () ∧
    (onInstall updatedNet (onInstall freshNet emptyWorld).2).2.netLog =
      (onInstall freshNet emptyWorld).2.netLog ++ urlsToCache.map getRequest ∧
    (onInstall updatedNet (onInstall freshNet emptyWorld).2).2.caches.map Prod.fst =
      (onInstall freshNet emptyWorld).2.caches.map Prod.fst ∧
    bucketOf (onInstall updatedNet (onInstall freshNet emptyWorld).2).2.caches CACHE_NAME =
      (bucketOf emptyWorld.caches CACHE_NAME).filter (fun e => e.1 ∉ urlsToCache) ++
        snapshot updatedNet urlsToCache ∧
    (∀ u ∈ urlsToCache, ∃ r,
      updatedNet (getRequest u) = Except.ok r ∧
      (bucketOf (onInstall updatedNet (onInstall freshNet emptyWorld).2).2.caches
        CACHE_NAME).filter (fun e => e.1 = u) = [(u, r)] ∧
      cacheMatch (getRequest u)
        (bucketOf (onInstall updatedNet (onInstall freshNet emptyWorld).2).2.caches
          CACHE_NAME) = some r) ∧
    (onInstall freshNet (onInstall freshNet emptyWorld).2).2.caches =
      (onInstall freshNet emptyWorld).2.caches) :=
  ⟨allFetched_freshNet urlsToCache, allFetched_updatedNet urlsToCache,
    C6_install_idempotent freshNet updatedNet emptyWorld (allFetched_freshNet urlsToCache)
      (allFetched_updatedNet urlsToCache)⟩

/-- C7 (a failed install leaves the offline cache unpopulated): started on
storage holding no entry, on a network on which at least one listed fetch
fails, install rejects and leaves storage holding no entry; no bucket has a
match for any listed identifier, and every later serve of a listed
identifier goes to the network. -/
theorem C7_failed_install_leaves_unpopulated (net later : Network) (w : World)
    (hempty : ∀ b ∈ w.caches, b.2 = [])
    (hfail : ∃ u ∈ urlsToCache, acceptable (net (getRequest u)) = none) :
    (onInstall net w).1 = Except.error Rejection.typeError ∧
    (∀ b ∈ (onInstall net w).2.caches, b.2 = []) ∧
    ∀ u ∈ urlsToCache,
      (∀ b ∈ (onInstall net w).2.caches, cacheMatch (getRequest u) b.2 = none) ∧
      onFetch later (getRequest u) (onInstall net w).2 =
        (later (getRequest u),
          World.mk (onInstall net w).2.caches ((onInstall net w).2.netLog ++ [getRequest u])
            (onInstall net w).2.console) := by
  rw [onInstall_error net w hfail]
  have hstill : ∀ b ∈ openedStorage w.caches CACHE_NAME, b.2 = [] := by
    intro b hb
    rcases mem_openedStorage hb with hb | hb
    · exact hempty b hb
    · rw [hb]
  refine ⟨rfl, hstill, ?_⟩
  intro u _
  have hnone : ∀ b ∈ openedStorage w.caches CACHE_NAME, cacheMatch (getRequest u) b.2 = none := by
    intro b hb
    rw [hstill b hb]
    exact cacheMatch_nil _
  exact ⟨hnone, onFetch_miss (findSome_none_of_forall hnone)⟩

/-- Witness of C7: the stylesheet cannot be fetched at install. -/
theorem C7_failed_install_leaves_unpopulated_witness :
    (∀ b ∈ emptyWorld.caches, b.2 = []) ∧
    (∃ u ∈ urlsToCache, acceptable (stylesDownNet (getRequest u)) = none) ∧
    ((onInstall stylesDownNet emptyWorld).1 = Except.error Rejection.typeError ∧
    (∀ b ∈ (onInstall stylesDownNet emptyWorld).2.caches, b.2 = []) ∧
    ∀ u ∈ urlsToCache,
      (∀ b ∈ (onInstall stylesDownNet emptyWorld).2.caches,
        cacheMatch (getRequest u) b.2 = none) ∧
      onFetch freshNet (getRequest u) (onInstall stylesDownNet emptyWorld).2 =
        (freshNet (getRequest u),
          World.mk (onInstall stylesDownNet emptyWorld).2.caches
            ((onInstall stylesDownNet emptyWorld).2.netLog ++ [getRequest u])
            (onInstall stylesDownNet emptyWorld).2.console)) :=
  ⟨by decide, ⟨"/styles.css", by decide, rfl⟩,
    C7_failed_install_leaves_unpopulated stylesDownNet freshNet emptyWorld (by decide)
      ⟨"/styles.css", by decide, rfl⟩⟩

/-- C8 (lookup is not scoped to the configured bucket name): when a bucket
whose name differs from `maison-beignet-v1` holds a matching response and no
bucket holds a different one, the `fetch` handler returns that response and
leaves the world, in particular the record of network calls, as it was. -/
theorem C8_lookup_not_scoped_to_bucket_name (net : Network) (w : World) (request : Request)
    (b : String × Cache) (r : Response)
    (hb : b ∈ w.caches) (_hname : b.1 ≠ CACHE_NAME)
    (hr : cacheMatch request b.2 = some r)
    (honly : ∀ b2 ∈ w.caches, ∀ r2, cacheMatch request b2.2 = some r2 → r2 = r) :
    onFetch net request w = (Except.ok r, w) := by
  cases hf : w.caches.findSome? (fun b => cacheMatch request b.2) with
  | none =>
    rw [List.findSome?_eq_none_iff] at hf
    rw [hf b hb] at hr
    exact absurd hr (by simp)
  | some r2 =>
    obtain ⟨b2, hb2, hbr⟩ := List.exists_of_findSome?_eq_some hf
    rw [onFetch_hit hf, honly b2 hb2 r2 hbr]

/-- Witness of C8: the only copy of `/` is in `maison-beignet-v0`. -/
theorem C8_lookup_not_scoped_to_bucket_name_witness :
    ("maison-beignet-v0", [("/", Response.mk 200 "stale")]) ∈ staleWorld.caches ∧
    "maison-beignet-v0" ≠ CACHE_NAME ∧
    onFetch offlineNet (getRequest "/") staleWorld =
      (Except.ok (Response.mk 200 "stale"), staleWorld) :=
  ⟨by decide, by decide,
    C8_lookup_not_scoped_to_bucket_name offlineNet staleWorld (getRequest "/")
      ("maison-beignet-v0", [("/", Response.mk 200 "stale")]) (Response.mk 200 "stale")
      (by decide) (by decide) rfl (by decide)⟩

/-- C9 (install touches only its own generation): whether install succeeds
or fails, afterwards a bucket named `maison-beignet-v1` exists, the bucket
names are the earlier ones followed by `maison-beignet-v1` if it was absent,
the buckets of every other name are the same with the same contents, and in
`maison-beignet-v1` the entries whose key is not listed are unchanged. -/
theorem C9_install_touches_only_its_bucket (net : Network) (w : World) :
    CACHE_NAME = "maison-beignet-v1" ∧
    CACHE_NAME ∈ (onInstall net w).2.caches.map Prod.fst ∧
    (onInstall net w).2.caches.map Prod.fst =
      (if CACHE_NAME ∈ w.caches.map Prod.fst then w.caches.map Prod.fst
       else w.caches.map Prod.fst ++ [CACHE_NAME]) ∧
    (onInstall net w).2.caches.filter (fun b => b.1 ≠ CACHE_NAME) =
      w.caches.filter (fun b => b.1 ≠ CACHE_NAME) ∧
    (bucketOf (onInstall net w).2.caches CACHE_NAME).filter (fun e => e.1 ∉ urlsToCache) =
      (bucketOf w.caches CACHE_NAME).filter (fun e => e.1 ∉ urlsToCache) := by
  have hopen := openedStorage_has w.caches CACHE_NAME
  by_cases h : AllFetched net urlsToCache
  · rw [onInstall_ok net w h]
    refine ⟨rfl, ?_, ?_, ?_, ?_⟩
    · rw [setBucket_names]; exact hopen
    · rw [setBucket_names, openedStorage_names]
    · rw [setBucket_filter_ne, openedStorage_filter_ne]
    · simp only [bucketOf_setBucket _ hopen, List.filter_append, List.filter_filter,
        snapshot_filter_listed, List.append_nil, Bool.and_self]
  · rw [onInstall_error net w (exists_failed_of_not_allFetched h)]
    exact ⟨rfl, hopen, openedStorage_names _ _, openedStorage_filter_ne _ _,
      by simp only [bucketOf_openedStorage]⟩

/-- C10 (the listed identifiers are distinct): `urlsToCache` has 14 entries,
no identifier occurs twice, and install never settles with the bulk store's
repeated-key rejection: it is fulfilled or rejects for a fetch that was not
acceptable. -/
theorem C10_urlsToCache_distinct :
    urlsToCache.length = 14 ∧ urlsToCache.Nodup ∧
    ∀ (net : Network) (w : World),
      (onInstall net w).1 ≠ Except.error Rejection.invalidStateError ∧
      ((onInstall net w).1 = Except.ok () ∨
        (onInstall net w).1 = Except.error Rejection.typeError) := by
  refine ⟨rfl, urlsToCache_nodup, ?_⟩
  intro net w
  by_cases h : AllFetched net urlsToCache
  · rw [onInstall_ok net w h]
    exact ⟨by simp, Or.inl rfl⟩
  · rw [onInstall_error net w (exists_failed_of_not_allFetched h)]
    exact ⟨by simp, Or.inr rfl⟩

end MaisonBeignet
